import Mathlib

/-!
Shallow embedding of the crossword CSP solver (`generate.py`, class
`CrosswordCreator`) and proofs about it.

Words are lists of characters; `w[i]` is embedded as `charAt` (total, with a
default character; all relevant accesses are in range because overlap indices
come from well-formed puzzles, see the spec's MalformedOverlap note).

The Puzzle Model (`crossword.py`) is not part of the core sources; it is
modelled from the spec's interface description: a finite slot set, a symmetric
overlap function `overlap(x, y) -> Option (index_in_x, index_in_y)` and a
neighbor function returning the slots with a defined overlap.

Python dictionaries keyed by slots are embedded as total functions out of
`Variable` (the domain store) and as association lists (assignments); Python
sets of words are embedded as lists, with `filter` playing the role of set
comprehension (a subset of a set compares equal to it exactly when nothing
was removed, which for a `filter` of a list is a length comparison).

The in-place mutation of `self.domains` performed by `revise` and `ac3` is
embedded by explicit state passing: `revise` returns the updated store, the
AC-3 loop is a step function `ac3Step` iterated by `ac3Loop` with explicit
fuel (the Python loop has no structural bound, so termination is a theorem,
not a definition), and `backtrack` threads the store through all calls, which
makes the read-only discipline of the search provable rather than assumed.
A Python run-time fault (subscripting `None` in `revise`, `remaining[0]` on
an empty list in `select_unassigned_variable`) is embedded as `none` or as
the `fault` outcome.
-/

namespace CrosswordCSP

/-- Words from the dictionary, embedded as lists of characters. -/
abbrev Word := List Char

/-- Character access `w[i]`, total with a default (in-range everywhere it is
    used under well-formed overlaps). -/
def charAt (w : Word) (i : Nat) : Char := w.getD i ' '

/-- Modelled from the spec: a slot (`Variable` in `crossword.py`, which is not
    among the core sources) is identified by start row, start column,
    direction and length, compared by value. -/
structure Variable where
  row : Nat
  col : Nat
  down : Bool
  len : Nat
deriving DecidableEq, Repr

/-- Modelled from the spec: the Puzzle Model interface — a finite set of
    slots and a symmetric overlap function; a slot has no overlap with
    itself. -/
structure Crossword where
  vars : List Variable
  overlaps : Variable → Variable → Option (Nat × Nat)
  vars_nodup : vars.Nodup
  overlaps_self : ∀ x, overlaps x x = none
  overlaps_symm : ∀ x y i j, overlaps x y = some (i, j) → overlaps y x = some (j, i)

/-- Modelled from the spec: `neighbors(x)` is the set of slots other than `x`
    whose overlap with `x` is defined. -/
def neighbors (cw : Crossword) (x : Variable) : List Variable :=
  cw.vars.filter fun y => !decide (y = x) && (cw.overlaps x y).isSome

/-- The domain store `self.domains`: candidate words per slot. -/
abbrev Domains := Variable → List Word

/-- An assignment: the Python dict from slots to words, as an association
    list in insertion order. -/
abbrev Assignment := List (Variable × Word)

/-- Keys of an assignment (the dict's key view). -/
def keys (a : Assignment) : List Variable := a.map Prod.fst

/-- Dictionary lookup `assignment[v]`. -/
def lookupA : Assignment → Variable → Option Word
  | [], _ => none
  | (k, w) :: rest, v => if k = v then some w else lookupA rest v

/-- Dictionary update `assignment[v] = w` (replace in place, or append a new
    key; in `backtrack` the key is always fresh). -/
def insertA : Assignment → Variable → Word → Assignment
  | [], v, w => [(v, w)]
  | (k, w0) :: rest, v, w =>
    if k = v then (v, w) :: rest else (k, w0) :: insertA rest v w

/-- A dict has one entry per key. -/
abbrev NodupKeys (a : Assignment) : Prop := (keys a).Nodup

/-- The binary support test of `revise`: the two words agree on the shared
    letter and are not the identical word (`dx_c == dy_c and dx != dy`). -/
def wordMatch (o1 o2 : Nat) (dx dy : Word) : Bool :=
  charAt dx o1 == charAt dy o2 && dx != dy

/-- Embeds `CrosswordCreator.revise` (generate.py lines 107-142). The source
    subscripts `overlap[0]` before its `overlap is not None` test, so a pair
    without an overlap faults: embedded as `none`. With an overlap, `keep`
    collects the words of `x`'s domain with support in `y`'s domain, and the
    domain of `x` is replaced by `keep` only when `keep` is non-empty;
    `revised` is `True` exactly when the assigned `keep` differs from the old
    domain. -/
def revise (cw : Crossword) (D : Domains) (x y : Variable) :
    Option (Domains × Bool) :=
  match cw.overlaps x y with
  | none => none
  | some (o1, o2) =>
    let keep := (D x).filter fun dx => (D y).any fun dy => wordMatch o1 o2 dx dy
    if keep.isEmpty then some (D, false)
    else some (Function.update D x keep, decide (keep ≠ D x))

/-- Outcome of an AC-3 run: fuel exhaustion, a Python fault inside `revise`,
    or regular return (`True`/`False`) with the final domain store. -/
inductive Ac3Out where
  | timeout : Ac3Out
  | fault : Ac3Out
  | done : Bool → Domains → Ac3Out

/-- One iteration of the `while queue` loop of `ac3` (generate.py lines
    160-168): pop the leftmost arc, revise, return `False` on an emptied
    domain, re-enqueue `(z, x)` for the other neighbors `z` of `x` when a
    revision was made. An empty queue returns `True`. -/
inductive Ac3Step where
  | next : Domains → List (Variable × Variable) → Ac3Step
  | halt : Ac3Out → Ac3Step

def ac3Step (cw : Crossword) (D : Domains) :
    List (Variable × Variable) → Ac3Step
  | [] => .halt (.done true D)
  | (x, y) :: rest =>
    match revise cw D x y with
    | none => .halt .fault
    | some (D', revised) =>
      if revised then
        if (D' x).isEmpty then .halt (.done false D')
        else .next D' (rest ++ ((neighbors cw x).filter fun z => !decide (z = y)).map fun z => (z, x))
      else .next D' rest

/-- The `ac3` loop with explicit fuel; the Python loop has no bound, so
    termination is proved separately (claim C7). -/
def ac3Loop (cw : Crossword) : Nat → Domains → List (Variable × Variable) → Ac3Out
  | 0, _, _ => .timeout
  | fuel + 1, D, Q =>
    match ac3Step cw D Q with
    | .halt out => out
    | .next D' Q' => ac3Loop cw fuel D' Q'

/-- The default initial arc list of `ac3(arcs=None)`: all `(var, n)` with `n`
    a neighbor of `var` (generate.py line 156). -/
def defaultArcs (cw : Crossword) : List (Variable × Variable) :=
  cw.vars.flatMap fun v => (neighbors cw v).map fun n => (v, n)

/-- Total number of candidate words over the puzzle's slots. -/
def totalSize (cw : Crossword) (D : Domains) : Nat :=
  (cw.vars.map fun v => (D v).length).sum

/-- Termination measure for the AC-3 loop. -/
def ac3Measure (cw : Crossword) (D : Domains) (Q : List (Variable × Variable)) : Nat :=
  totalSize cw D * (cw.vars.length + 1) + Q.length

/-- The default run `self.ac3()` (arcs=None), with fuel sufficient for
    termination. -/
def ac3 (cw : Crossword) (D : Domains) : Ac3Out :=
  ac3Loop cw (ac3Measure cw D (defaultArcs cw) + 1) D (defaultArcs cw)

/-- States `(domains, queue)` reachable by the AC-3 loop. -/
def Ac3Reaches (cw : Crossword) :
    (Domains × List (Variable × Variable)) → (Domains × List (Variable × Variable)) → Prop :=
  Relation.ReflTransGen fun p q => ac3Step cw p.1 p.2 = .next q.1 q.2

/-- Every queued arc pairs a puzzle slot with one of its neighbors. -/
def NeighborArcs (cw : Crossword) (Q : List (Variable × Variable)) : Prop :=
  ∀ p ∈ Q, p.1 ∈ cw.vars ∧ p.2 ∈ neighbors cw p.1

/-- Embeds `enforce_node_consistency` (generate.py lines 98-105): keep only
    words whose length equals the slot's length, for each slot of the
    puzzle. -/
def enforce_node_consistency (cw : Crossword) (D : Domains) : Domains :=
  fun v => if v ∈ cw.vars then (D v).filter (fun w => w.length == v.len) else D v

/-- Embeds `assignment_complete` (generate.py lines 170-185): the key set
    equals the puzzle's variable set. (The `value is None` check of the
    source cannot fire here: assignment values are words.) -/
def assignment_complete (cw : Crossword) (a : Assignment) : Bool :=
  (cw.vars.all fun v => decide (v ∈ keys a)) && ((keys a).all fun k => decide (k ∈ cw.vars))

/-- Embeds `consistent` (generate.py lines 187-204): every assigned slot
    agrees with each of its assigned neighbors on the shared letter and does
    not repeat the neighbor's word. The overlap destructuring cannot fault
    because neighbors have a defined overlap. -/
def consistent (cw : Crossword) (a : Assignment) : Bool :=
  a.all fun p =>
    (neighbors cw p.1).all fun y =>
      match lookupA a y, cw.overlaps p.1 y with
      | some wy, some (i, j) => (charAt p.2 i == charAt wy j) && p.2 != wy
      | some _, none => true
      | none, _ => true

/-- Comparison by second component, the key of both stable sorts of the
    source (`pair: pair[1]`). -/
def leSnd {α : Type} (p q : α × Nat) : Prop := p.2 ≤ q.2

instance {α : Type} : DecidableRel (@leSnd α) :=
  fun p q => inferInstanceAs (Decidable (p.2 ≤ q.2))

instance {α : Type} : IsTotal (α × Nat) leSnd := ⟨fun p q => Nat.le_total p.2 q.2⟩

instance {α : Type} : IsTrans (α × Nat) leSnd := ⟨fun _ _ _ h1 h2 => Nat.le_trans h1 h2⟩

/-- The elimination count of `order_domain_values` for one candidate `dx`:
    over the unassigned neighbors, the number of neighbor domain words that
    disagree with `dx` at the overlap (generate.py lines 218-230). -/
def countElim (cw : Crossword) (D : Domains) (a : Assignment) (var : Variable) (dx : Word) : Nat :=
  (((neighbors cw var).filter fun nb => !decide (nb ∈ keys a)).map fun nb =>
    match cw.overlaps var nb with
    | some (oi, oj) => ((D nb).filter fun v => charAt dx oi != charAt v oj).length
    | none => 0).sum

/-- Embeds `order_domain_values` (generate.py lines 206-234): pair each
    domain word with its elimination count, sort ascending by the count
    (Python's stable sort, embedded as a stable insertion sort), and drop the
    counts. -/
def order_domain_values (cw : Crossword) (D : Domains) (var : Variable) (a : Assignment) :
    List Word :=
  (((D var).map fun dx => (dx, countElim cw D a var dx)).insertionSort leSnd).map Prod.fst

/-- Python's proper-subset comparison `s < t` on sets of slots, the
    comparison actually used by the tie-break sort of
    `select_unassigned_variable` (its sort key is the neighbor set itself,
    not the neighbor count). -/
def setProperSub (s t : List Variable) : Bool :=
  (s.all fun v => decide (v ∈ t)) && !(t.all fun v => decide (v ∈ s))

/-- Order in which Python's stable sort with key `neighbors(pair[0])` keeps
    two elements: `p` stays before `q` unless `q`'s key set is a proper
    subset of `p`'s. -/
def tieRel (cw : Crossword) (p q : Variable × Nat) : Prop :=
  setProperSub (neighbors cw q.1) (neighbors cw p.1) = false

instance (cw : Crossword) : DecidableRel (tieRel cw) :=
  fun p q => inferInstanceAs (Decidable (_ = false))

/-- The `remaining` list of `select_unassigned_variable` after its in-place
    sort (generate.py lines 244-247): unassigned slots paired with their
    domain sizes, stably sorted ascending by size. -/
def selectSorted (cw : Crossword) (D : Domains) (a : Assignment) : List (Variable × Nat) :=
  ((cw.vars.filter fun v => !decide (v ∈ keys a)).map
    fun v => (v, (D v).length)).insertionSort leSnd

/-- Embeds `select_unassigned_variable` (generate.py lines 236-263): from the
    size-sorted remaining list, count the slots tied at the minimal size;
    with a unique minimum return the head, otherwise re-sort the tied prefix
    with the neighbor-set key (see `tieRel`) and return the first. On an
    empty remaining list the source faults (`remaining[0]` raises), embedded
    as `none`. -/
def select_unassigned_variable (cw : Crossword) (D : Domains) (a : Assignment) :
    Option Variable :=
  match selectSorted cw D a with
  | [] => none
  | minp :: _ =>
    if ((selectSorted cw D a).countP fun p => p.2 == minp.2) == 1 then some minp.1
    else
      match ((selectSorted cw D a).take
          ((selectSorted cw D a).countP fun p => p.2 == minp.2)).insertionSort (tieRel cw) with
      | [] => none
      | t :: _ => some t.1

/-- The `for value in order_domain_values(...)` loop of `backtrack`
    (generate.py lines 278-284), with the recursive call abstracted as `bt`;
    the domain store is threaded through every call to make the read-only
    discipline of the search provable. -/
def tryValues (cw : Crossword) (bt : Domains → Assignment → Domains × Option Assignment)
    (var : Variable) : Domains → Assignment → List Word → Domains × Option Assignment
  | D, _, [] => (D, none)
  | D, a, value :: rest =>
    let a' := insertA a var value
    if consistent cw a' then
      match bt D a' with
      | (D', some result) => (D', some result)
      | (D', none) => tryValues cw bt var D' a rest
    else tryValues cw bt var D a rest

/-- Embeds `backtrack` (generate.py lines 265-285), with fuel bounding the
    recursion depth (the Python recursion adds one fresh key per level, so
    `|vars| + 1` levels suffice from the empty assignment). -/
def backtrack (cw : Crossword) : Nat → Domains → Assignment → Domains × Option Assignment
  | 0, D, _ => (D, none)
  | fuel + 1, D, a =>
    if assignment_complete cw a then (D, some a)
    else
      match select_unassigned_variable cw D a with
      | none => (D, none)
      | some var =>
        tryValues cw (fun D2 a2 => backtrack cw fuel D2 a2) var D a
          (order_domain_values cw D var a)

/-- Embeds `solve` (generate.py lines 90-96): node consistency, the default
    AC-3 run (its boolean result is discarded, as in the source), then
    backtracking search from the empty assignment. The fault and timeout
    branches are unreachable for the default run. -/
def solve (cw : Crossword) (words : List Word) : Option Assignment :=
  let D1 := enforce_node_consistency cw fun _ => words
  match ac3 cw D1 with
  | .done _ D2 => (backtrack cw (cw.vars.length + 1) D2 []).2
  | _ => none

/-- Key-set completeness plus uniqueness: exactly one entry per puzzle slot
    and no entries beyond the puzzle's slots. -/
abbrev CompleteA (cw : Crossword) (a : Assignment) : Prop :=
  NodupKeys a ∧ (∀ v ∈ keys a, v ∈ cw.vars) ∧ (∀ v ∈ cw.vars, v ∈ keys a)

/-- A complete, consistent assignment drawing each word from the given
    domain store. -/
abbrev SolutionIn (cw : Crossword) (D : Domains) (s : Assignment) : Prop :=
  NodupKeys s ∧ (∀ v ∈ keys s, v ∈ cw.vars) ∧ (∀ v ∈ cw.vars, v ∈ keys s) ∧
    consistent cw s = true ∧ (∀ p ∈ s, p.2 ∈ D p.1)

/-- Overlap function generated from a one-directional association list,
    closed under symmetry; used to build concrete puzzles. -/
def symOverlaps (l : List ((Variable × Variable) × (Nat × Nat))) (x y : Variable) :
    Option (Nat × Nat) :=
  if x = y then none
  else
    match l.find? fun e => decide (e.1.1 = x) && decide (e.1.2 = y) with
    | some e => some e.2
    | none =>
      match l.find? fun e => decide (e.1.1 = y) && decide (e.1.2 = x) with
      | some e => some (e.2.2, e.2.1)
      | none => none

/-- No pair of entries of the overlap list (including an entry with itself)
    lists both orientations of the same slot pair. -/
def oneWay (l : List ((Variable × Variable) × (Nat × Nat))) : Bool :=
  l.all fun e => l.all fun e2 => !(decide (e.1.1 = e2.1.2) && decide (e.1.2 = e2.1.1))

/-- Builds a concrete puzzle from a slot list and a one-directional overlap
    list. -/
def mkCrossword (vs : List Variable) (l : List ((Variable × Variable) × (Nat × Nat)))
    (hnd : vs.Nodup) (hone : oneWay l = true) : Crossword where
  vars := vs
  overlaps := symOverlaps l
  vars_nodup := hnd
  overlaps_self := by intro x; simp [symOverlaps]
  overlaps_symm := by
    intro x y i j h
    by_cases hxy : x = y
    · simp [symOverlaps, hxy] at h
    · simp only [symOverlaps, if_neg hxy, if_neg (Ne.symm hxy)] at h ⊢
      cases hf : l.find? fun e => decide (e.1.1 = x) && decide (e.1.2 = y) with
      | some e =>
        rw [hf] at h
        simp only [Option.some.injEq] at h
        have hmem := List.mem_of_find?_eq_some hf
        have hpred := List.find?_some hf
        simp only [Bool.and_eq_true, decide_eq_true_eq] at hpred
        have hnone : (l.find? fun e2 => decide (e2.1.1 = y) && decide (e2.1.2 = x)) = none := by
          rw [List.find?_eq_none]
          intro e2 he2
          have h2 := List.all_eq_true.mp (List.all_eq_true.mp hone e hmem) e2 he2
          simp only [Bool.not_eq_true', Bool.and_eq_false_iff, decide_eq_false_iff_not] at h2
          simp only [Bool.and_eq_true, decide_eq_true_eq, not_and]
          intro h21 h22
          rcases h2 with h2 | h2
          · exact h2 (by rw [hpred.1, h22])
          · exact h2 (by rw [hpred.2, h21])
        rw [hnone]
        show some (e.2.2, e.2.1) = some (j, i)
        rw [h]
      | none =>
        rw [hf] at h
        cases hg : l.find? fun e => decide (e.1.1 = y) && decide (e.1.2 = x) with
        | some e =>
          rw [hg] at h
          simp only [Option.some.injEq, Prod.mk.injEq] at h
          show some e.2 = some (j, i)
          rw [← h.1, ← h.2]
        | none => rw [hg] at h; exact absurd h (by simp)

/-! Concrete puzzles used as witnesses and counterexamples. -/

/-- A 3-letter across slot at the origin. -/
def A2 : Variable := ⟨0, 0, false, 3⟩

/-- A 3-letter down slot crossing `A2` at its last letter. -/
def B2 : Variable := ⟨0, 2, true, 3⟩

/-- Two crossing 3-letter slots: position 2 of `A2` meets position 0 of
    `B2`. -/
def CW2 : Crossword := mkCrossword [A2, B2] [((A2, B2), (2, 0))] (by decide) (by decide)

/-- Post-filtering domains for `CW2`: two candidates for the across slot and
    one for the down slot. -/
def D2 : Domains := fun v =>
  if v = A2 then [['c', 'a', 't'], ['a', 'c', 'e']]
  else if v = B2 then [['t', 'e', 'n']]
  else []

/-- The assignment found by the search on `CW2`/`D2`. -/
def R2 : Assignment := [(B2, ['t', 'e', 'n']), (A2, ['c', 'a', 't'])]

/-- The same solution listed in the other order. -/
def S2 : Assignment := [(A2, ['c', 'a', 't']), (B2, ['t', 'e', 'n'])]

/-- A 1-letter across slot. -/
def A4 : Variable := ⟨0, 0, false, 1⟩

/-- A 1-letter down slot on the same cell. -/
def B4 : Variable := ⟨0, 0, true, 1⟩

/-- Two crossing 1-letter slots sharing their single cell. -/
def CW4 : Crossword := mkCrossword [A4, B4] [((A4, B4), (0, 0))] (by decide) (by decide)

/-- Domains with no compatible pair for `CW4`: the crossing letters
    disagree. -/
def D4 : Domains := fun v =>
  if v = A4 then [['a']]
  else if v = B4 then [['b']]
  else []

/-- Slot 1 of the tie-break puzzle. -/
def A5 : Variable := ⟨0, 0, false, 1⟩

/-- Slot 2 of the tie-break puzzle. -/
def B5 : Variable := ⟨1, 0, false, 1⟩

/-- Slot 3 of the tie-break puzzle. -/
def C5 : Variable := ⟨2, 0, false, 1⟩

/-- Slot 4 of the tie-break puzzle. -/
def E5 : Variable := ⟨3, 0, false, 1⟩

/-- Four slots where `A5` has the single neighbor `C5` while `B5` has the two
    neighbors `C5` and `E5`, and the neighbor set of `A5` is a proper subset
    of that of `B5`. -/
def CW5 : Crossword :=
  mkCrossword [A5, B5, C5, E5]
    [((A5, C5), (0, 0)), ((B5, C5), (0, 0)), ((B5, E5), (0, 0))] (by decide) (by decide)

/-- Domains for `CW5`: `A5` and `B5` are tied at the minimal size 2. -/
def D5 : Domains := fun v =>
  if v = A5 then [['a'], ['b']]
  else if v = B5 then [['c'], ['d']]
  else [['e'], ['f'], ['g']]

/-- First slot of the overlap-free puzzle. -/
def An : Variable := ⟨0, 0, false, 1⟩

/-- Second slot of the overlap-free puzzle. -/
def Bn : Variable := ⟨5, 5, true, 1⟩

/-- Two slots with no overlap at all. -/
def CWn : Crossword := mkCrossword [An, Bn] [] (by decide) (by decide)

/-- A one-word domain store for `CWn`. -/
def Dn : Domains := fun _ => [['a']]

/-! Association-list (dictionary) lemmas. -/

lemma keys_cons (k : Variable) (w : Word) (rest : Assignment) :
    keys ((k, w) :: rest) = k :: keys rest := rfl

lemma lookupA_mem {a : Assignment} {v : Variable} {w : Word} (h : lookupA a v = some w) :
    (v, w) ∈ a := by
  induction a with
  | nil => simp [lookupA] at h
  | cons p rest ih =>
    obtain ⟨k, w0⟩ := p
    by_cases hk : k = v
    · subst hk
      rw [lookupA, if_pos rfl, Option.some.injEq] at h
      rw [← h]
      exact List.mem_cons_self ..
    · rw [lookupA, if_neg hk] at h
      exact List.mem_cons_of_mem _ (ih h)

lemma mem_keys_of_mem {a : Assignment} {p : Variable × Word} (h : p ∈ a) : p.1 ∈ keys a :=
  List.mem_map_of_mem Prod.fst h

lemma lookupA_eq_none {a : Assignment} {v : Variable} :
    lookupA a v = none ↔ v ∉ keys a := by
  induction a with
  | nil => simp [lookupA, keys]
  | cons p rest ih =>
    obtain ⟨k, w0⟩ := p
    rw [keys_cons]
    by_cases hk : k = v
    · subst hk; simp [lookupA]
    · simp only [lookupA, if_neg hk, ih, List.mem_cons]
      constructor
      · intro hnot hor
        rcases hor with hor | hor
        · exact hk hor.symm
        · exact hnot hor
      · intro hnot h2
        exact hnot (Or.inr h2)

lemma lookupA_isSome_of_mem {a : Assignment} {v : Variable} (h : v ∈ keys a) :
    ∃ w, lookupA a v = some w := by
  cases hl : lookupA a v with
  | none => exact absurd h (lookupA_eq_none.mp hl)
  | some w => exact ⟨w, rfl⟩

lemma lookupA_of_mem_nodup {a : Assignment} (hnd : NodupKeys a) {v : Variable} {w : Word}
    (h : (v, w) ∈ a) : lookupA a v = some w := by
  induction a with
  | nil => simp at h
  | cons p rest ih =>
    obtain ⟨k, w0⟩ := p
    have hnd' : (keys rest).Nodup ∧ k ∉ keys rest := by
      have := hnd
      rw [NodupKeys, keys_cons, List.nodup_cons] at this
      exact ⟨this.2, this.1⟩
    rcases List.mem_cons.mp h with h | h
    · rw [Prod.mk.injEq] at h
      rw [lookupA, if_pos h.1.symm, h.2]
    · have hvk : v ≠ k := by
        intro he
        exact hnd'.2 (he ▸ mem_keys_of_mem h)
      rw [lookupA, if_neg (fun he => hvk he.symm)]
      exact ih hnd'.1 h

lemma insertA_of_not_mem {a : Assignment} {v : Variable} (hv : v ∉ keys a) (w : Word) :
    insertA a v w = a ++ [(v, w)] := by
  induction a with
  | nil => rfl
  | cons p rest ih =>
    obtain ⟨k, w0⟩ := p
    rw [keys_cons, List.mem_cons] at hv
    push_neg at hv
    rw [insertA, if_neg (fun h => hv.1 h.symm), ih hv.2]
    rfl

lemma keys_insertA {a : Assignment} {v : Variable} (hv : v ∉ keys a) (w : Word) :
    keys (insertA a v w) = keys a ++ [v] := by
  rw [insertA_of_not_mem hv, keys, List.map_append]
  rfl

lemma nodupKeys_insertA {a : Assignment} {v : Variable} (hnd : NodupKeys a)
    (hv : v ∉ keys a) (w : Word) : NodupKeys (insertA a v w) := by
  rw [NodupKeys, keys_insertA hv]
  simp only [List.nodup_append, List.nodup_cons, List.not_mem_nil, not_false_iff,
    List.nodup_nil, and_true, true_and, List.disjoint_singleton]
  exact ⟨hnd, hv⟩

lemma lookupA_insertA {a : Assignment} {v : Variable} (hv : v ∉ keys a) (w : Word)
    (u : Variable) :
    lookupA (insertA a v w) u = if u = v then some w else lookupA a u := by
  induction a with
  | nil =>
    show lookupA [(v, w)] u = _
    by_cases h : u = v
    · subst h; simp [lookupA]
    · rw [if_neg h]
      show (if v = u then some w else lookupA [] u) = lookupA [] u
      rw [if_neg fun hh => h hh.symm]
  | cons p rest ih =>
    obtain ⟨k, w0⟩ := p
    rw [keys_cons, List.mem_cons] at hv
    push_neg at hv
    rw [insertA, if_neg fun h : k = v => hv.1 h.symm]
    show (if k = u then some w0 else lookupA (insertA rest v w) u) = _
    by_cases hku : k = u
    · subst hku
      rw [if_pos rfl, if_neg fun h : k = v => hv.1 h.symm]
      show some w0 = lookupA ((k, w0) :: rest) k
      rw [lookupA, if_pos rfl]
    · rw [if_neg hku, ih hv.2]
      by_cases huv : u = v
      · rw [if_pos huv, if_pos huv]
      · rw [if_neg huv, if_neg huv]
        show lookupA rest u = lookupA ((k, w0) :: rest) u
        rw [lookupA, if_neg hku]

lemma mem_insertA {a : Assignment} {v : Variable} {w : Word} {p : Variable × Word}
    (h : p ∈ insertA a v w) : p ∈ a ∨ p = (v, w) := by
  induction a with
  | nil =>
    simp only [insertA, List.mem_singleton] at h
    exact Or.inr h
  | cons q rest ih =>
    obtain ⟨k, w0⟩ := q
    rw [insertA] at h
    by_cases hk : k = v
    · rw [if_pos hk] at h
      rcases List.mem_cons.mp h with h | h
      · exact Or.inr h
      · exact Or.inl (List.mem_cons_of_mem _ h)
    · rw [if_neg hk] at h
      rcases List.mem_cons.mp h with h | h
      · exact Or.inl (h ▸ List.mem_cons_self ..)
      · rcases ih h with h | h
        · exact Or.inl (List.mem_cons_of_mem _ h)
        · exact Or.inr h

/-! Characterizations of the check helpers of the search. -/

lemma assignment_complete_iff (cw : Crossword) (a : Assignment) :
    assignment_complete cw a = true ↔
      (∀ v ∈ cw.vars, v ∈ keys a) ∧ ∀ v ∈ keys a, v ∈ cw.vars := by
  simp [assignment_complete, List.all_eq_true]

lemma mem_neighbors_iff {cw : Crossword} {x y : Variable} :
    y ∈ neighbors cw x ↔ y ∈ cw.vars ∧ y ≠ x ∧ (cw.overlaps x y).isSome := by
  rw [neighbors, List.mem_filter]
  simp [and_assoc]

lemma consistent_iff (cw : Crossword) {a : Assignment} (hnd : NodupKeys a)
    (hsub : ∀ v ∈ keys a, v ∈ cw.vars) :
    consistent cw a = true ↔
      ∀ x y wx wy i j, lookupA a x = some wx → lookupA a y = some wy →
        cw.overlaps x y = some (i, j) → charAt wx i = charAt wy j ∧ wx ≠ wy := by
  constructor
  · intro h x y wx wy i j hx hy ho
    have hxy : x ≠ y := by
      intro he
      subst he
      rw [cw.overlaps_self] at ho
      exact absurd ho (by simp)
    have hmemx : (x, wx) ∈ a := lookupA_mem hx
    have hinner := List.all_eq_true.mp (List.all_eq_true.mp h _ hmemx)
    have hyn : y ∈ neighbors cw x := by
      rw [mem_neighbors_iff]
      exact ⟨hsub y (mem_keys_of_mem (lookupA_mem hy)), Ne.symm hxy, by rw [ho]; rfl⟩
    have hcond := hinner y hyn
    rw [hy, ho] at hcond
    simp only [Bool.and_eq_true, beq_iff_eq, bne_iff_ne] at hcond
    exact hcond
  · intro h
    rw [consistent, List.all_eq_true]
    intro p hp
    rw [List.all_eq_true]
    intro y hyn
    cases hy : lookupA a y with
    | none => cases cw.overlaps p.1 y <;> rfl
    | some wy =>
      cases ho : cw.overlaps p.1 y with
      | none => rfl
      | some ij =>
        obtain ⟨i, j⟩ := ij
        have hx : lookupA a p.1 = some p.2 := lookupA_of_mem_nodup hnd hp
        have hc := h p.1 y p.2 wy i j hx hy ho
        show (charAt p.2 i == charAt wy j && p.2 != wy) = true
        simp only [Bool.and_eq_true, beq_iff_eq, bne_iff_ne]
        exact hc

/-! Value-ordering lemmas. -/

lemma map_fst_pairing {α β : Type} (f : α → β) (l : List α) :
    (l.map fun x => (x, f x)).map Prod.fst = l := by
  induction l with
  | nil => rfl
  | cons x rest ih => simp [ih]

lemma order_domain_values_perm (cw : Crossword) (D : Domains) (var : Variable)
    (a : Assignment) : (order_domain_values cw D var a).Perm (D var) := by
  rw [order_domain_values]
  have h1 := List.perm_insertionSort leSnd ((D var).map fun dx => (dx, countElim cw D a var dx))
  have h2 := h1.map Prod.fst
  rwa [map_fst_pairing] at h2

/-! The search never writes the domain store. -/

lemma tryValues_fst (cw : Crossword) (bt : Domains → Assignment → Domains × Option Assignment)
    (var : Variable) (hbt : ∀ D a, (bt D a).1 = D) :
    ∀ l D a, (tryValues cw bt var D a l).1 = D := by
  intro l
  induction l with
  | nil => intro D a; rfl
  | cons v rest ih =>
    intro D a
    rw [tryValues]
    by_cases hc : consistent cw (insertA a var v)
    · rw [if_pos hc]
      rcases hb : bt D (insertA a var v) with ⟨D', o⟩
      have hD' : D' = D := by rw [← hbt D (insertA a var v), hb]
      cases o with
      | some r => exact hD'
      | none => exact (ih D' a).trans hD'
    · rw [if_neg hc]
      exact ih D a

lemma backtrack_fst (cw : Crossword) : ∀ fuel D a, (backtrack cw fuel D a).1 = D := by
  intro fuel
  induction fuel with
  | zero => intro D a; rfl
  | succ fuel ih =>
    intro D a
    rw [backtrack]
    by_cases hc : assignment_complete cw a
    · rw [if_pos hc]
    · rw [if_neg hc]
      cases select_unassigned_variable cw D a with
      | none => rfl
      | some var => exact tryValues_fst cw _ var (fun D2 a2 => ih D2 a2) _ D a

/-! Inversion lemmas for one revise call and one AC-3 iteration. -/

lemma revise_none_iff {cw : Crossword} {D : Domains} {x y : Variable} :
    revise cw D x y = none ↔ cw.overlaps x y = none := by
  rw [revise]
  cases cw.overlaps x y with
  | none => simp
  | some o =>
    obtain ⟨o1, o2⟩ := o
    simp only [iff_false, reduceCtorEq]
    by_cases hk : ((D x).filter fun dx => (D y).any fun dy => wordMatch o1 o2 dx dy).isEmpty
    · simp [hk]
    · simp [hk]

lemma revise_some_inv {cw : Crossword} {D D' : Domains} {x y : Variable} {b : Bool}
    (h : revise cw D x y = some (D', b)) :
    ∃ o1 o2, cw.overlaps x y = some (o1, o2) ∧
      ((((D x).filter fun dx => (D y).any fun dy => wordMatch o1 o2 dx dy).isEmpty = true ∧
          D' = D ∧ b = false) ∨
       (((D x).filter fun dx => (D y).any fun dy => wordMatch o1 o2 dx dy).isEmpty = false ∧
          D' = Function.update D x ((D x).filter fun dx => (D y).any fun dy => wordMatch o1 o2 dx dy) ∧
          b = decide (((D x).filter fun dx => (D y).any fun dy => wordMatch o1 o2 dx dy) ≠ D x))) := by
  rw [revise] at h
  cases ho : cw.overlaps x y with
  | none => rw [ho] at h; exact absurd h (by simp)
  | some o =>
    obtain ⟨o1, o2⟩ := o
    rw [ho] at h
    dsimp only at h
    refine ⟨o1, o2, rfl, ?_⟩
    by_cases hk : ((D x).filter fun dx => (D y).any fun dy => wordMatch o1 o2 dx dy).isEmpty
    · rw [if_pos hk] at h
      simp only [Option.some.injEq, Prod.mk.injEq] at h
      exact Or.inl ⟨hk, h.1.symm, h.2.symm⟩
    · rw [if_neg hk] at h
      simp only [Option.some.injEq, Prod.mk.injEq] at h
      exact Or.inr ⟨Bool.eq_false_iff.mpr hk, h.1.symm, h.2.symm⟩

lemma ac3Step_next_inv {cw : Crossword} {D D' : Domains}
    {Q Q' : List (Variable × Variable)} (h : ac3Step cw D Q = .next D' Q') :
    ∃ x y rest b, Q = (x, y) :: rest ∧ revise cw D x y = some (D', b) ∧
      ((b = true ∧ (D' x).isEmpty = false ∧
          Q' = rest ++ ((neighbors cw x).filter fun z => !decide (z = y)).map fun z => (z, x)) ∨
       (b = false ∧ Q' = rest)) := by
  cases Q with
  | nil => exact absurd h (by rw [ac3Step]; simp)
  | cons p rest =>
    obtain ⟨x, y⟩ := p
    rw [ac3Step] at h
    cases hr : revise cw D x y with
    | none => rw [hr] at h; exact absurd h (by simp)
    | some pr =>
      obtain ⟨D2, revised⟩ := pr
      rw [hr] at h
      cases revised with
      | false =>
        simp only [Bool.false_eq_true, if_false] at h
        simp only [Ac3Step.next.injEq] at h
        exact ⟨x, y, rest, false, rfl, h.1 ▸ hr, Or.inr ⟨rfl, h.2.symm⟩⟩
      | true =>
        simp only [if_true] at h
        by_cases he : (D2 x).isEmpty
        · rw [if_pos he] at h
          exact absurd h (by simp)
        · rw [if_neg he] at h
          simp only [Ac3Step.next.injEq] at h
          refine ⟨x, y, rest, true, rfl, h.1 ▸ hr, Or.inl ⟨rfl, ?_, h.2.symm⟩⟩
          rw [← h.1]
          exact Bool.eq_false_iff.mpr he

lemma ac3Step_fault_inv {cw : Crossword} {D : Domains} {Q : List (Variable × Variable)}
    (h : ac3Step cw D Q = .halt .fault) :
    ∃ x y rest, Q = (x, y) :: rest ∧ revise cw D x y = none := by
  cases Q with
  | nil => exact absurd h (by rw [ac3Step]; simp)
  | cons p rest =>
    obtain ⟨x, y⟩ := p
    rw [ac3Step] at h
    cases hr : revise cw D x y with
    | none => exact ⟨x, y, rest, rfl, hr⟩
    | some pr =>
      obtain ⟨D2, revised⟩ := pr
      rw [hr] at h
      cases revised with
      | false => exact absurd h (by simp)
      | true =>
        by_cases he : (D2 x).isEmpty
        · simp only [if_true] at h
          rw [if_pos he] at h
          exact absurd h (by simp)
        · simp only [if_true] at h
          rw [if_neg he] at h
          exact absurd h (by simp)

lemma ac3Step_done_inv {cw : Crossword} {D D2 : Domains} {Q : List (Variable × Variable)}
    {b : Bool} (h : ac3Step cw D Q = .halt (.done b D2)) :
    (Q = [] ∧ b = true ∧ D2 = D) ∨
      (∃ x y rest, Q = (x, y) :: rest ∧ revise cw D x y = some (D2, true) ∧
        (D2 x).isEmpty = true ∧ b = false) := by
  cases Q with
  | nil =>
    rw [ac3Step] at h
    simp only [Ac3Step.halt.injEq, Ac3Out.done.injEq] at h
    exact Or.inl ⟨rfl, h.1.symm, h.2.symm⟩
  | cons p rest =>
    obtain ⟨x, y⟩ := p
    rw [ac3Step] at h
    cases hr : revise cw D x y with
    | none => rw [hr] at h; exact absurd h (by simp)
    | some pr =>
      obtain ⟨D3, revised⟩ := pr
      rw [hr] at h
      cases revised with
      | false => exact absurd h (by simp)
      | true =>
        by_cases he : (D3 x).isEmpty
        · simp only [if_true] at h
          rw [if_pos he] at h
          simp only [Ac3Step.halt.injEq, Ac3Out.done.injEq] at h
          exact Or.inr ⟨x, y, rest, rfl, h.2 ▸ hr, h.2 ▸ he, h.1.symm⟩
        · simp only [if_true] at h
          rw [if_neg he] at h
          exact absurd h (by simp)

/-! Queue invariant of the AC-3 loop: under the default initialization every
    queued arc pairs a slot with a neighbor, and the loop preserves this. -/

lemma neighborArcs_default (cw : Crossword) : NeighborArcs cw (defaultArcs cw) := by
  intro p hp
  rw [defaultArcs, List.mem_flatMap] at hp
  obtain ⟨v, hv, hp⟩ := hp
  rw [List.mem_map] at hp
  obtain ⟨n, hn, he⟩ := hp
  rw [← he]
  exact ⟨hv, hn⟩

lemma neighborArcs_step {cw : Crossword} {D D' : Domains}
    {Q Q' : List (Variable × Variable)}
    (hQ : NeighborArcs cw Q) (hstep : ac3Step cw D Q = .next D' Q') :
    NeighborArcs cw Q' := by
  obtain ⟨x, y, rest, b, hQeq, hrev, hcase⟩ := ac3Step_next_inv hstep
  subst hQeq
  have hrest : NeighborArcs cw rest := fun p hp => hQ p (List.mem_cons_of_mem _ hp)
  have hx : x ∈ cw.vars := (hQ (x, y) (List.mem_cons_self ..)).1
  rcases hcase with ⟨_, _, hQ'⟩ | ⟨_, hQ'⟩
  · subst hQ'
    intro p hp
    rcases List.mem_append.mp hp with hp | hp
    · exact hrest p hp
    · rw [List.mem_map] at hp
      obtain ⟨z, hz, he⟩ := hp
      rw [List.mem_filter] at hz
      have hzn := hz.1
      rw [mem_neighbors_iff] at hzn
      rw [← he]
      refine ⟨hzn.1, ?_⟩
      rw [mem_neighbors_iff]
      refine ⟨hx, Ne.symm hzn.2.1, ?_⟩
      cases hov : cw.overlaps x z with
      | none => rw [hov] at hzn; exact absurd hzn.2.2 (by simp)
      | some o =>
        obtain ⟨i, j⟩ := o
        rw [cw.overlaps_symm x z i j hov]
        rfl
  · subst hQ'
    exact hrest

lemma reaches_preserves_neighborArcs {cw : Crossword}
    {s t : Domains × List (Variable × Variable)}
    (h : Ac3Reaches cw s t) (hs : NeighborArcs cw s.2) : NeighborArcs cw t.2 := by
  induction h with
  | refl => exact hs
  | tail hab hbc ih => exact neighborArcs_step ih hbc

lemma ac3Loop_ne_fault {cw : Crossword} :
    ∀ (fuel : Nat) (D : Domains) (Q : List (Variable × Variable)),
      NeighborArcs cw Q → ac3Loop cw fuel D Q ≠ Ac3Out.fault := by
  intro fuel
  induction fuel with
  | zero =>
    intro D Q hQ h
    rw [ac3Loop] at h
    exact absurd h (by simp)
  | succ fuel ih =>
    intro D Q hQ h
    rw [ac3Loop] at h
    cases hstep : ac3Step cw D Q with
    | halt out =>
      rw [hstep] at h
      subst h
      obtain ⟨x, y, rest, hQeq, hrev⟩ := ac3Step_fault_inv hstep
      have hyn := (hQ (x, y) (hQeq ▸ List.mem_cons_self ..)).2
      rw [mem_neighbors_iff] at hyn
      rw [revise_none_iff] at hrev
      rw [hrev] at hyn
      exact absurd hyn.2.2 (by simp)
    | next D' Q' =>
      rw [hstep] at h
      exact ih D' Q' (neighborArcs_step hQ hstep) h

/-- Claim C10: `revise` subscripts the overlap pair before its `is not None`
    test, so calling it on a pair whose overlap is undefined faults; under
    the default initialization of `ac3` (arcs=None) every arc ever queued
    pairs a slot with one of its neighbors, so that run never faults; an arc
    list headed by a non-neighbor pair reaches the faulting access at once. -/
theorem c10 (cw : Crossword) :
    (∀ D x y, cw.overlaps x y = none → revise cw D x y = none) ∧
    (∀ D fuel, ac3Loop cw fuel D (defaultArcs cw) ≠ Ac3Out.fault) ∧
    (∀ D x y rest fuel, cw.overlaps x y = none →
      ac3Loop cw (fuel + 1) D ((x, y) :: rest) = Ac3Out.fault) := by
  refine ⟨?_, ?_, ?_⟩
  · intro D x y h
    rw [revise_none_iff]
    exact h
  · intro D fuel
    exact ac3Loop_ne_fault fuel D _ (neighborArcs_default cw)
  · intro D x y rest fuel h
    rw [ac3Loop]
    have hstep : ac3Step cw D ((x, y) :: rest) = .halt .fault := by
      rw [ac3Step, revise_none_iff.mpr h]
    rw [hstep]

/-- Witness for C10: a concrete pair of slots with no overlap makes `revise`
    fault, and an arc list naming it makes `ac3` fault. -/
theorem c10_witness :
    revise CWn Dn An Bn = none ∧ ac3Loop CWn 1 Dn [(An, Bn)] = Ac3Out.fault :=
  ⟨(c10 CWn).1 Dn An Bn rfl, (c10 CWn).2.2 Dn An Bn [] 0 rfl⟩

/-- Claim C9: `backtrack` never mutates the shared domain store: the store it
    returns is the one it was given, for every fuel, store and assignment
    (and tentative extensions are copies of the caller's assignment, which in
    this embedding is an immutable value). -/
theorem c9 (cw : Crossword) (fuel : Nat) (D : Domains) (a : Assignment) :
    (backtrack cw fuel D a).1 = D :=
  backtrack_fst cw fuel D a

/-- Claim C8: `order_domain_values` returns exactly the words of the slot's
    current domain, ordered ascending by the number of words that choosing
    the candidate would eliminate from the domains of the unassigned
    neighbors. -/
theorem c8 (cw : Crossword) (D : Domains) (var : Variable) (a : Assignment) :
    (order_domain_values cw D var a).Perm (D var) ∧
    (order_domain_values cw D var a).Pairwise
      (fun w1 w2 => countElim cw D a var w1 ≤ countElim cw D a var w2) := by
  refine ⟨order_domain_values_perm cw D var a, ?_⟩
  rw [order_domain_values, List.pairwise_map]
  have hs := List.sorted_insertionSort leSnd
    ((D var).map fun dx => (dx, countElim cw D a var dx))
  have hmem : ∀ p ∈ ((D var).map fun dx => (dx, countElim cw D a var dx)).insertionSort leSnd,
      p.2 = countElim cw D a var p.1 := by
    intro p hp
    have hp2 := (List.perm_insertionSort leSnd _).mem_iff.mp hp
    rw [List.mem_map] at hp2
    obtain ⟨dx, _, hpe⟩ := hp2
    rw [← hpe]
  refine List.Pairwise.imp_of_mem ?_ hs
  intro p q hp hq hle
  rw [← hmem p hp, ← hmem q hq]
  exact hle

/-- Claim C3 (code bug): on a neighbor pair without any supported word,
    `revise` leaves the domain of `x` unchanged and returns `False`, instead
    of emptying the domain and returning `True` as its docstring and the spec
    require: on `CW4`, the single word of `A4` has no support in `B4`. -/
theorem c3_bug :
    revise CW4 D4 A4 B4 = some (D4, false) ∧
    D4 A4 = [['a']] ∧ D4 B4 = [['b']] ∧
    CW4.overlaps A4 B4 = some (0, 0) ∧
    ((D4 A4).all fun wx => (D4 B4).all fun wy => !wordMatch 0 0 wx wy) = true :=
  ⟨rfl, rfl, rfl, rfl, by decide⟩

/-- Claim C4 (code bug): the default AC-3 run on `CW4` returns success with
    the domains untouched although the remaining word of `A4` has no support
    in its neighbor `B4`, so the resulting domains are not arc consistent. -/
theorem c4_bug :
    ac3 CW4 D4 = Ac3Out.done true D4 ∧
    ['a'] ∈ D4 A4 ∧ B4 ∈ neighbors CW4 A4 ∧
    CW4.overlaps A4 B4 = some (0, 0) ∧
    ((D4 B4).any fun wy => wordMatch 0 0 ['a'] wy) = false :=
  ⟨rfl, by decide, by decide, rfl, by decide⟩

/-- Claim C5 (code bug): on `CW5` with the empty assignment, `A5` and `B5`
    are both unassigned and tied at the minimal domain size 2, yet the code
    returns `A5`, which has 1 neighbor, although the tied slot `B5` has 2:
    the tie-break sorts by the neighbor set under Python's subset order and
    takes the first, instead of choosing the highest degree. -/
theorem c5_bug :
    select_unassigned_variable CW5 D5 [] = some A5 ∧
    A5 ∈ CW5.vars ∧ B5 ∈ CW5.vars ∧ A5 ≠ B5 ∧
    (D5 A5).length = 2 ∧ (D5 B5).length = 2 ∧
    (∀ v ∈ CW5.vars, 2 ≤ (D5 v).length) ∧
    (neighbors CW5 A5).length = 1 ∧ (neighbors CW5 B5).length = 2 := by
  decide

/-! Per-call facts about `revise` used for soundness and termination. -/

lemma revise_eq_of_ne {cw : Crossword} {D D' : Domains} {x y v : Variable} {b : Bool}
    (h : revise cw D x y = some (D', b)) (hv : v ≠ x) : D' v = D v := by
  obtain ⟨o1, o2, _, hcase⟩ := revise_some_inv h
  rcases hcase with ⟨_, hD, _⟩ | ⟨_, hD, _⟩
  · rw [hD]
  · rw [hD, Function.update_noteq hv]

lemma revise_false_eq {cw : Crossword} {D D' : Domains} {x y : Variable}
    (h : revise cw D x y = some (D', false)) : D' = D := by
  obtain ⟨o1, o2, _, hcase⟩ := revise_some_inv h
  rcases hcase with ⟨_, hD, _⟩ | ⟨_, hD, hb⟩
  · exact hD
  · have hk : ((D x).filter fun dx => (D y).any fun dy => wordMatch o1 o2 dx dy) = D x := by
      have hb2 := hb.symm
      rw [decide_eq_false_iff_not, not_not] at hb2
      exact hb2
    rw [hD, hk, Function.update_eq_self]

lemma revise_true_lt {cw : Crossword} {D D' : Domains} {x y : Variable}
    (h : revise cw D x y = some (D', true)) : (D' x).length < (D x).length := by
  obtain ⟨o1, o2, _, hcase⟩ := revise_some_inv h
  rcases hcase with ⟨_, _, hb⟩ | ⟨_, hD, hb⟩
  · exact absurd hb (by simp)
  · have hkne : ((D x).filter fun dx => (D y).any fun dy => wordMatch o1 o2 dx dy) ≠ D x := by
      have hb2 := hb.symm
      rwa [decide_eq_true_eq] at hb2
    have hsub : List.Sublist ((D x).filter fun dx => (D y).any fun dy => wordMatch o1 o2 dx dy)
        (D x) := List.filter_sublist (D x)
    rw [hD, Function.update_same]
    exact Nat.lt_of_le_of_ne hsub.length_le fun heq => hkne (hsub.eq_of_length heq)

/-! Claim C6: AC-3 soundness. -/

/-- Claim C6: AC-3 is sound. At every state reachable in the default run of
    `ac3`, the arc at the head of the queue pairs a slot with one of its
    neighbors, the revise performed there removes a word only when that word
    has, at this moment, no supporting word in that neighbor's domain, and a
    word with a supporting word in every neighbor's domain is never
    removed. -/
theorem c6 (cw : Crossword) (D0 D D' : Domains) (Q rest : List (Variable × Variable))
    (x y : Variable) (o1 o2 : Nat) (b : Bool)
    (hreach : Ac3Reaches cw (D0, defaultArcs cw) (D, Q))
    (hQ : Q = (x, y) :: rest)
    (ho : cw.overlaps x y = some (o1, o2))
    (hrev : revise cw D x y = some (D', b)) :
    y ∈ neighbors cw x ∧
    (∀ w ∈ D x, w ∉ D' x → ((D y).all fun wy => !wordMatch o1 o2 w wy) = true) ∧
    (∀ w ∈ D x, (∀ z ∈ neighbors cw x, ∃ p q, cw.overlaps x z = some (p, q) ∧
        ((D z).any fun wz => wordMatch p q w wz) = true) → w ∈ D' x) := by
  have harcs : NeighborArcs cw Q :=
    reaches_preserves_neighborArcs hreach (neighborArcs_default cw)
  have hyn : y ∈ neighbors cw x := (harcs (x, y) (hQ ▸ List.mem_cons_self ..)).2
  obtain ⟨o1', o2', ho', hcase⟩ := revise_some_inv hrev
  rw [ho] at ho'
  have ho1 : o1' = o1 ∧ o2' = o2 := by
    have hs := ho'.symm
    rw [Option.some.injEq, Prod.mk.injEq] at hs
    exact hs
  rw [ho1.1, ho1.2] at hcase
  refine ⟨hyn, ?_, ?_⟩
  · intro w hw hnotin
    have hpred : ((D y).any fun dy => wordMatch o1 o2 w dy) = false := by
      rcases hcase with ⟨hemp, hD, _⟩ | ⟨_, hD, _⟩
      · rw [hD] at hnotin
        exact absurd hw hnotin
      · by_contra hne
        rw [Bool.not_eq_false] at hne
        refine hnotin ?_
        rw [hD, Function.update_same]
        exact List.mem_filter.mpr ⟨hw, hne⟩
    rw [List.all_eq_true]
    intro wy hwy
    rw [Bool.not_eq_true']
    by_contra hne
    rw [Bool.not_eq_false] at hne
    have hany : ((D y).any fun dy => wordMatch o1 o2 w dy) = true :=
      List.any_eq_true.mpr ⟨wy, hwy, hne⟩
    rw [hpred] at hany
    exact absurd hany (by simp)
  · intro w hw hsup
    obtain ⟨p, q, hov, hany⟩ := hsup y hyn
    rw [ho] at hov
    have hpq : p = o1 ∧ q = o2 := by
      rw [Option.some.injEq, Prod.mk.injEq] at hov
      exact ⟨hov.1.symm, hov.2.symm⟩
    rw [hpq.1, hpq.2] at hany
    rcases hcase with ⟨hemp, hD, _⟩ | ⟨_, hD, _⟩
    · rw [hD]; exact hw
    · rw [hD, Function.update_same]
      exact List.mem_filter.mpr ⟨hw, hany⟩

/-- Witness for C6 at the initial state of the default AC-3 run on `CW4`,
    where the revise of the arc `(A4, B4)` keeps the unsupported word. -/
theorem c6_witness :
    B4 ∈ neighbors CW4 A4 ∧
    (∀ w ∈ D4 A4, w ∉ D4 A4 → ((D4 B4).all fun wy => !wordMatch 0 0 w wy) = true) ∧
    (∀ w ∈ D4 A4, (∀ z ∈ neighbors CW4 A4, ∃ p q, CW4.overlaps A4 z = some (p, q) ∧
        ((D4 z).any fun wz => wordMatch p q w wz) = true) → w ∈ D4 A4) :=
  c6 CW4 D4 D4 D4 (defaultArcs CW4) [(B4, A4)] A4 B4 0 0 false
    Relation.ReflTransGen.refl rfl rfl rfl

/-! Claim C7: AC-3 termination, and emptiness on failure. -/

lemma sum_map_lt {l : List Variable} (hnd : l.Nodup) {f g : Variable → Nat} {x : Variable}
    (hx : x ∈ l) (hlt : g x < f x) (heq : ∀ v ∈ l, v ≠ x → g v = f v) :
    (l.map g).sum < (l.map f).sum := by
  induction l with
  | nil => simp at hx
  | cons h t ih =>
    rw [List.nodup_cons] at hnd
    rw [List.map_cons, List.map_cons, List.sum_cons, List.sum_cons]
    rcases List.mem_cons.mp hx with hx | hx
    · subst hx
      have ht : t.map g = t.map f := by
        apply List.map_congr_left
        intro v hv
        exact heq v (List.mem_cons_of_mem _ hv) fun hvx => hnd.1 (hvx ▸ hv)
      rw [ht]
      exact Nat.add_lt_add_right hlt _
    · have hh : g h = f h := heq h (List.mem_cons_self ..) fun hhx => hnd.1 (hhx ▸ hx)
      rw [hh]
      exact Nat.add_lt_add_left (ih hnd.2 hx fun v hv => heq v (List.mem_cons_of_mem _ hv)) _

lemma totalSize_lt {cw : Crossword} {D D' : Domains} {x : Variable}
    (hx : x ∈ cw.vars) (hlt : (D' x).length < (D x).length)
    (hoth : ∀ v, v ≠ x → D' v = D v) : totalSize cw D' < totalSize cw D := by
  rw [totalSize, totalSize]
  exact sum_map_lt cw.vars_nodup hx hlt fun v _ hv => by rw [hoth v hv]

lemma enqueue_length_le (cw : Crossword) (x y : Variable) :
    (((neighbors cw x).filter fun z => !decide (z = y)).map fun z => (z, x)).length ≤
      cw.vars.length := by
  rw [List.length_map]
  calc ((neighbors cw x).filter fun z => !decide (z = y)).length
      ≤ (neighbors cw x).length := List.length_filter_le _ _
    _ ≤ cw.vars.length := by rw [neighbors]; exact List.length_filter_le _ _

lemma ac3Step_measure {cw : Crossword} {D D' : Domains}
    {Q Q' : List (Variable × Variable)}
    (hfst : ∀ p ∈ Q, p.1 ∈ cw.vars) (hstep : ac3Step cw D Q = .next D' Q') :
    ac3Measure cw D' Q' < ac3Measure cw D Q ∧ ∀ p ∈ Q', p.1 ∈ cw.vars := by
  obtain ⟨x, y, rest, b, hQeq, hrev, hcase⟩ := ac3Step_next_inv hstep
  subst hQeq
  have hx : x ∈ cw.vars := hfst (x, y) (List.mem_cons_self ..)
  rcases hcase with ⟨hb, _, hQ'⟩ | ⟨hb, hQ'⟩
  · subst hb
    subst hQ'
    have hlt := revise_true_lt hrev
    have hts : totalSize cw D' < totalSize cw D :=
      totalSize_lt hx hlt fun v hv => revise_eq_of_ne hrev hv
    constructor
    · rw [ac3Measure, ac3Measure, List.length_append, List.length_cons]
      have hE := enqueue_length_le cw x y
      have h1 : totalSize cw D' * (cw.vars.length + 1) +
            (((neighbors cw x).filter fun z => !decide (z = y)).map fun z => (z, x)).length <
          (totalSize cw D' + 1) * (cw.vars.length + 1) := by
        rw [Nat.succ_mul]
        exact Nat.add_lt_add_left (Nat.lt_succ_of_le hE) _
      have h2 : (totalSize cw D' + 1) * (cw.vars.length + 1) ≤
          totalSize cw D * (cw.vars.length + 1) :=
        Nat.mul_le_mul (Nat.succ_le_of_lt hts) (Nat.le_refl _)
      calc totalSize cw D' * (cw.vars.length + 1) +
            (rest.length +
              (((neighbors cw x).filter fun z => !decide (z = y)).map fun z => (z, x)).length)
          = (totalSize cw D' * (cw.vars.length + 1) +
              (((neighbors cw x).filter fun z => !decide (z = y)).map fun z => (z, x)).length) +
            rest.length := by ring
        _ < (totalSize cw D' + 1) * (cw.vars.length + 1) + rest.length :=
            Nat.add_lt_add_right h1 _
        _ ≤ totalSize cw D * (cw.vars.length + 1) + rest.length := Nat.add_le_add_right h2 _
        _ < totalSize cw D * (cw.vars.length + 1) + (rest.length + 1) :=
            Nat.add_lt_add_left (Nat.lt_succ_self _) _
    · intro p hp
      rcases List.mem_append.mp hp with hp | hp
      · exact hfst p (List.mem_cons_of_mem _ hp)
      · rw [List.mem_map] at hp
        obtain ⟨z, hz, he⟩ := hp
        rw [List.mem_filter] at hz
        have hz1 := hz.1
        rw [mem_neighbors_iff] at hz1
        rw [← he]
        exact hz1.1
  · subst hb
    subst hQ'
    have hD : D' = D := revise_false_eq hrev
    subst hD
    refine ⟨?_, fun p hp => hfst p (List.mem_cons_of_mem _ hp)⟩
    rw [ac3Measure, ac3Measure, List.length_cons]
    exact Nat.add_lt_add_left (Nat.lt_succ_self _) _

lemma ac3Step_ne_halt_timeout (cw : Crossword) (D : Domains) :
    ∀ Q, ac3Step cw D Q ≠ Ac3Step.halt Ac3Out.timeout := by
  intro Q h
  cases Q with
  | nil => rw [ac3Step] at h; simp at h
  | cons p rest =>
    obtain ⟨x, y⟩ := p
    rw [ac3Step] at h
    cases hr : revise cw D x y with
    | none => rw [hr] at h; simp at h
    | some pr =>
      obtain ⟨D2, revised⟩ := pr
      rw [hr] at h
      cases revised with
      | false => simp at h
      | true =>
        by_cases he : (D2 x).isEmpty
        · simp only [if_true] at h
          rw [if_pos he] at h
          simp at h
        · simp only [if_true] at h
          rw [if_neg he] at h
          simp at h

lemma ac3Loop_no_timeout {cw : Crossword} :
    ∀ (n : Nat) (D : Domains) (Q : List (Variable × Variable)),
      (∀ p ∈ Q, p.1 ∈ cw.vars) → ac3Measure cw D Q ≤ n →
      ac3Loop cw (n + 1) D Q ≠ Ac3Out.timeout := by
  intro n
  induction n with
  | zero =>
    intro D Q hfst hm
    have hQ : Q = [] := by
      rw [ac3Measure] at hm
      have hlen : Q.length = 0 := by omega
      exact List.length_eq_zero.mp hlen
    subst hQ
    rw [ac3Loop]
    rw [show ac3Step cw D [] = .halt (.done true D) from rfl]
    simp
  | succ n ih =>
    intro D Q hfst hm
    rw [ac3Loop]
    cases hstep : ac3Step cw D Q with
    | halt out =>
      intro he
      subst he
      exact ac3Step_ne_halt_timeout cw D Q hstep
    | next D2 Q2 =>
      obtain ⟨hlt, hfst2⟩ := ac3Step_measure hfst hstep
      exact ih D2 Q2 hfst2 (by omega)

lemma ac3Loop_mono {cw : Crossword} :
    ∀ (n m : Nat) (D : Domains) (Q : List (Variable × Variable)),
      n ≤ m → ac3Loop cw n D Q ≠ Ac3Out.timeout →
      ac3Loop cw m D Q = ac3Loop cw n D Q := by
  intro n
  induction n with
  | zero =>
    intro m D Q _ hne
    exact absurd rfl hne
  | succ n ih =>
    intro m D Q hnm hne
    obtain ⟨m', rfl⟩ : ∃ m', m = m' + 1 := ⟨m - 1, by omega⟩
    rw [ac3Loop] at hne
    rw [ac3Loop, ac3Loop]
    cases hstep : ac3Step cw D Q with
    | halt out => rfl
    | next D2 Q2 =>
      rw [hstep] at hne
      exact ih m' D2 Q2 (by omega) hne

lemma ac3Loop_false_empty {cw : Crossword} :
    ∀ (fuel : Nat) (D D' : Domains) (Q : List (Variable × Variable)),
      ac3Loop cw fuel D Q = Ac3Out.done false D' → ∃ v, D' v = [] := by
  intro fuel
  induction fuel with
  | zero =>
    intro D D' Q h
    rw [ac3Loop] at h
    exact absurd h (by simp)
  | succ fuel ih =>
    intro D D' Q h
    rw [ac3Loop] at h
    cases hstep : ac3Step cw D Q with
    | halt out =>
      rw [hstep] at h
      subst h
      rcases ac3Step_done_inv hstep with ⟨_, hb, _⟩ | ⟨x, y, rest, _, _, hemp, _⟩
      · exact absurd hb (by simp)
      · exact ⟨x, List.isEmpty_iff.mp hemp⟩
    | next D2 Q2 =>
      rw [hstep] at h
      exact ih D2 D' Q2 h

/-- Claim C7: for every puzzle, every domain store and every initial arc list
    of slots (the default all-arcs list included), the AC-3 loop terminates —
    some fuel makes the run finish and larger fuel returns the same result —
    and whenever the run returns failure, at least one slot's domain is empty
    at that moment. -/
theorem c7 (cw : Crossword) (D : Domains) (Q : List (Variable × Variable))
    (h : ∀ p ∈ Q, p.1 ∈ cw.vars) :
    (∃ fuel, ac3Loop cw fuel D Q ≠ Ac3Out.timeout ∧
      ∀ fuel', fuel ≤ fuel' → ac3Loop cw fuel' D Q = ac3Loop cw fuel D Q) ∧
    (∀ fuel D', ac3Loop cw fuel D Q = Ac3Out.done false D' → ∃ v, D' v = []) := by
  constructor
  · refine ⟨ac3Measure cw D Q + 1, ?_, ?_⟩
    · exact ac3Loop_no_timeout _ D Q h (Nat.le_refl _)
    · intro fuel' hf
      exact ac3Loop_mono _ fuel' D Q hf (ac3Loop_no_timeout _ D Q h (Nat.le_refl _))
  · intro fuel D' hf
    exact ac3Loop_false_empty fuel D D' Q hf

/-- Witness for C7 on the concrete puzzle `CW4` with its default arc list. -/
theorem c7_witness :
    (∀ p ∈ defaultArcs CW4, p.1 ∈ CW4.vars) ∧
    ((∃ fuel, ac3Loop CW4 fuel D4 (defaultArcs CW4) ≠ Ac3Out.timeout ∧
        ∀ fuel', fuel ≤ fuel' →
          ac3Loop CW4 fuel' D4 (defaultArcs CW4) = ac3Loop CW4 fuel D4 (defaultArcs CW4)) ∧
      (∀ fuel D', ac3Loop CW4 fuel D4 (defaultArcs CW4) = Ac3Out.done false D' →
        ∃ v, D' v = [])) :=
  ⟨by decide, c7 CW4 D4 (defaultArcs CW4) (by decide)⟩

/-! Lemmas about variable selection. -/

lemma selectSorted_entries {cw : Crossword} {D : Domains} {a : Assignment} :
    ∀ p ∈ selectSorted cw D a, p.1 ∈ cw.vars ∧ p.1 ∉ keys a := by
  intro p hp
  rw [selectSorted] at hp
  have hp2 := (List.perm_insertionSort leSnd ((cw.vars.filter fun v => !decide (v ∈ keys a)).map
      fun v => (v, (D v).length))).mem_iff.mp hp
  rw [List.mem_map] at hp2
  obtain ⟨v, hv, he⟩ := hp2
  rw [List.mem_filter] at hv
  rw [← he]
  refine ⟨hv.1, ?_⟩
  have hv2 := hv.2
  rw [Bool.not_eq_true', decide_eq_false_iff_not] at hv2
  exact hv2

lemma select_mem {cw : Crossword} {D : Domains} {a : Assignment} {var : Variable}
    (h : select_unassigned_variable cw D a = some var) :
    var ∈ cw.vars ∧ var ∉ keys a := by
  rw [select_unassigned_variable] at h
  cases hs : selectSorted cw D a with
  | nil => rw [hs] at h; exact absurd h (by simp)
  | cons minp rest =>
    rw [hs] at h
    have h2 : (if ((minp :: rest).countP fun p => p.2 == minp.2) == 1 then some minp.1
        else match ((minp :: rest).take
            ((minp :: rest).countP fun p => p.2 == minp.2)).insertionSort (tieRel cw) with
          | [] => none
          | t :: _ => some t.1) = some var := h
    by_cases hk : (((minp :: rest).countP fun p => p.2 == minp.2) == 1) = true
    · rw [if_pos hk, Option.some.injEq] at h2
      subst h2
      exact selectSorted_entries minp (hs ▸ List.mem_cons_self ..)
    · rw [if_neg hk] at h2
      cases htie : (((minp :: rest).take
          ((minp :: rest).countP fun p => p.2 == minp.2)).insertionSort (tieRel cw)) with
      | nil => rw [htie] at h2; exact absurd h2 (by simp)
      | cons t ts =>
        rw [htie, Option.some.injEq] at h2
        subst h2
        have hmem : t ∈ (((minp :: rest).take
            ((minp :: rest).countP fun p => p.2 == minp.2)).insertionSort (tieRel cw)) := by
          rw [htie]
          exact List.mem_cons_self ..
        have hmem2 := (List.perm_insertionSort (tieRel cw) _).mem_iff.mp hmem
        have hmem3 : t ∈ minp :: rest := List.take_subset _ _ hmem2
        exact selectSorted_entries t (hs ▸ hmem3)

lemma select_isSome {cw : Crossword} {D : Domains} {a : Assignment}
    (h : ∃ v ∈ cw.vars, v ∉ keys a) :
    ∃ var, select_unassigned_variable cw D a = some var := by
  obtain ⟨v, hv, hnv⟩ := h
  have hvs : (v, (D v).length) ∈ selectSorted cw D a := by
    rw [selectSorted]
    rw [(List.perm_insertionSort leSnd _).mem_iff]
    rw [List.mem_map]
    exact ⟨v, List.mem_filter.mpr ⟨hv, by simp [hnv]⟩, rfl⟩
  rw [select_unassigned_variable]
  cases hs : selectSorted cw D a with
  | nil => rw [hs] at hvs; simp at hvs
  | cons minp rest =>
    show ∃ var, (if ((minp :: rest).countP fun p => p.2 == minp.2) == 1 then some minp.1
        else match ((minp :: rest).take
            ((minp :: rest).countP fun p => p.2 == minp.2)).insertionSort (tieRel cw) with
          | [] => none
          | t :: _ => some t.1) = some var
    by_cases hk : (((minp :: rest).countP fun p => p.2 == minp.2) == 1) = true
    · exact ⟨minp.1, by rw [if_pos hk]⟩
    · have hcp : 0 < (minp :: rest).countP fun p => p.2 == minp.2 := by
        rw [List.countP_pos_iff]
        exact ⟨minp, List.mem_cons_self .., by simp⟩
      obtain ⟨k, hk2⟩ : ∃ k, ((minp :: rest).countP fun p => p.2 == minp.2) = k + 1 :=
        ⟨((minp :: rest).countP fun p => p.2 == minp.2) - 1, by omega⟩
      have htk : ((minp :: rest).take
          ((minp :: rest).countP fun p => p.2 == minp.2)) = minp :: rest.take k := by
        rw [hk2]
        rfl
      cases htie : (((minp :: rest).take
          ((minp :: rest).countP fun p => p.2 == minp.2)).insertionSort (tieRel cw)) with
      | nil =>
        have hlen := (List.perm_insertionSort (tieRel cw) ((minp :: rest).take
          ((minp :: rest).countP fun p => p.2 == minp.2))).length_eq
        rw [htie, htk] at hlen
        simp at hlen
      | cons t ts =>
        refine ⟨t.1, ?_⟩
        rw [if_neg hk]

/-! Soundness of the backtracking search (claim C1). -/

lemma order_domain_values_subset {cw : Crossword} {D : Domains} {var : Variable}
    {a : Assignment} : ∀ w ∈ order_domain_values cw D var a, w ∈ D var :=
  fun w hw => (order_domain_values_perm cw D var a).mem_iff.mp hw

lemma tryValues_sound (cw : Crossword) (D : Domains) (var : Variable)
    (bt : Domains → Assignment → Domains × Option Assignment)
    (hfst : ∀ D2 a2, (bt D2 a2).1 = D2)
    (hbt : ∀ a2 r, NodupKeys a2 → (∀ v ∈ keys a2, v ∈ cw.vars) →
        consistent cw a2 = true → (∀ p ∈ a2, p.2 ∈ D p.1) →
        (bt D a2).2 = some r → SolutionIn cw D r) :
    ∀ (l : List Word) (a r : Assignment),
      NodupKeys a → (∀ v ∈ keys a, v ∈ cw.vars) → consistent cw a = true →
      (∀ p ∈ a, p.2 ∈ D p.1) → var ∈ cw.vars → var ∉ keys a →
      (∀ w ∈ l, w ∈ D var) →
      (tryValues cw bt var D a l).2 = some r → SolutionIn cw D r := by
  intro l
  induction l with
  | nil =>
    intro a r _ _ _ _ _ _ _ h
    exact absurd h (by rw [tryValues]; simp)
  | cons v rest ih =>
    intro a r hnd hsub hcons hval hvin hvnk hlv h
    rw [tryValues] at h
    by_cases hc : consistent cw (insertA a var v)
    · rw [if_pos hc] at h
      rcases hb : bt D (insertA a var v) with ⟨D', o⟩
      rw [hb] at h
      have hD' : D' = D := by rw [← hfst D (insertA a var v), hb]
      have hkeys2 : ∀ u ∈ keys (insertA a var v), u ∈ cw.vars := by
        intro u hu
        rw [keys_insertA hvnk] at hu
        rcases List.mem_append.mp hu with hu | hu
        · exact hsub u hu
        · rw [List.mem_singleton] at hu
          exact hu ▸ hvin
      have hval2 : ∀ p ∈ insertA a var v, p.2 ∈ D p.1 := by
        intro p hp
        rcases mem_insertA hp with hp | hp
        · exact hval p hp
        · rw [hp]
          exact hlv v (List.mem_cons_self ..)
      cases o with
      | some r2 =>
        have h2 : some r2 = some r := h
        rw [Option.some.injEq] at h2
        subst h2
        exact hbt (insertA a var v) r2 (nodupKeys_insertA hnd hvnk v) hkeys2 hc hval2
          (by rw [hb])
      | none =>
        have h2 : (tryValues cw bt var D' a rest).2 = some r := h
        rw [hD'] at h2
        exact ih a r hnd hsub hcons hval hvin hvnk
          (fun w hw => hlv w (List.mem_cons_of_mem _ hw)) h2
    · rw [if_neg hc] at h
      exact ih a r hnd hsub hcons hval hvin hvnk
        (fun w hw => hlv w (List.mem_cons_of_mem _ hw)) h

lemma backtrack_sound (cw : Crossword) :
    ∀ (fuel : Nat) (D : Domains) (a r : Assignment),
      NodupKeys a → (∀ v ∈ keys a, v ∈ cw.vars) → consistent cw a = true →
      (∀ p ∈ a, p.2 ∈ D p.1) → (backtrack cw fuel D a).2 = some r →
      SolutionIn cw D r := by
  intro fuel
  induction fuel with
  | zero =>
    intro D a r _ _ _ _ h
    exact absurd h (by rw [backtrack]; simp)
  | succ fuel ih =>
    intro D a r hnd hsub hcons hval h
    rw [backtrack] at h
    by_cases hcomp : assignment_complete cw a
    · rw [if_pos hcomp] at h
      have h2 : some a = some r := h
      rw [Option.some.injEq] at h2
      subst h2
      have hci := (assignment_complete_iff cw a).mp hcomp
      exact ⟨hnd, hsub, hci.1, hcons, hval⟩
    · rw [if_neg hcomp] at h
      cases hsel : select_unassigned_variable cw D a with
      | none => rw [hsel] at h; exact absurd h (by simp)
      | some var =>
        rw [hsel] at h
        obtain ⟨hvin, hvnk⟩ := select_mem hsel
        exact tryValues_sound cw D var (fun D2 a2 => backtrack cw fuel D2 a2)
          (fun D2 a2 => backtrack_fst cw fuel D2 a2)
          (fun a2 r2 h1 h2 h3 h4 h5 => ih D a2 r2 h1 h2 h3 h4 h5)
          (order_domain_values cw D var a) a r hnd hsub hcons hval hvin hvnk
          (fun w hw => order_domain_values_subset w hw) h

/-- Claim C1: every assignment returned by the search is complete — exactly
    one entry per puzzle slot and none beyond — and consistent: any two
    assigned slots with a defined overlap agree at the overlap's character
    indices and never hold the identical word. Stated for any non-None
    result of backtrack from a consistent partial assignment over the
    puzzle's slots, and for every assignment returned by solve. -/
theorem c1 (cw : Crossword) (D : Domains) :
    (∀ fuel a r, NodupKeys a → (∀ v ∈ keys a, v ∈ cw.vars) →
      consistent cw a = true → (∀ p ∈ a, p.2 ∈ D p.1) →
      (backtrack cw fuel D a).2 = some r →
      CompleteA cw r ∧ consistent cw r = true ∧
        (∀ x y wx wy i j, lookupA r x = some wx → lookupA r y = some wy →
          cw.overlaps x y = some (i, j) → charAt wx i = charAt wy j ∧ wx ≠ wy)) ∧
    (∀ words r, solve cw words = some r →
      CompleteA cw r ∧ consistent cw r = true ∧
        (∀ x y wx wy i j, lookupA r x = some wx → lookupA r y = some wy →
          cw.overlaps x y = some (i, j) → charAt wx i = charAt wy j ∧ wx ≠ wy)) := by
  have hmain : ∀ fuel D2 a r, NodupKeys a → (∀ v ∈ keys a, v ∈ cw.vars) →
      consistent cw a = true → (∀ p ∈ a, p.2 ∈ D2 p.1) →
      (backtrack cw fuel D2 a).2 = some r →
      CompleteA cw r ∧ consistent cw r = true ∧
        (∀ x y wx wy i j, lookupA r x = some wx → lookupA r y = some wy →
          cw.overlaps x y = some (i, j) → charAt wx i = charAt wy j ∧ wx ≠ wy) := by
    intro fuel D2 a r hnd hsub hcons hval h
    obtain ⟨h1, h2, h3, h4, _⟩ := backtrack_sound cw fuel D2 a r hnd hsub hcons hval h
    exact ⟨⟨h1, h2, h3⟩, h4, (consistent_iff cw h1 h2).mp h4⟩
  constructor
  · intro fuel a r hnd hsub hcons hval h
    exact hmain fuel D a r hnd hsub hcons hval h
  · intro words r h
    rw [solve] at h
    cases hac : ac3 cw (enforce_node_consistency cw fun _ => words) with
    | timeout => rw [hac] at h; exact absurd h (by simp)
    | fault => rw [hac] at h; exact absurd h (by simp)
    | done b D2 =>
      rw [hac] at h
      refine hmain (cw.vars.length + 1) D2 [] r ?_ ?_ rfl ?_ h
      · rw [NodupKeys]
        exact List.nodup_nil
      · intro v hv
        simp [keys] at hv
      · intro p hp
        simp at hp

/-- Witness for C1: the search on the concrete puzzle `CW2` returns the
    complete, consistent assignment `R2`. -/
theorem c1_witness :
    CompleteA CW2 R2 ∧ consistent CW2 R2 = true ∧
      (∀ x y wx wy i j, lookupA R2 x = some wx → lookupA R2 y = some wy →
        CW2.overlaps x y = some (i, j) → charAt wx i = charAt wy j ∧ wx ≠ wy) :=
  (c1 CW2 D2).1 3 [] R2 (by decide) (by decide) (by decide) (by decide) (by decide)

/-! Completeness of the backtracking search (claim C2). -/

lemma keys_length_lt {cw : Crossword} {a : Assignment} (hnd : NodupKeys a)
    (hsub : ∀ v ∈ keys a, v ∈ cw.vars) {var : Variable} (hvar : var ∈ cw.vars)
    (hnv : var ∉ keys a) : (keys a).length < cw.vars.length := by
  have hnodup : (var :: keys a).Nodup := List.nodup_cons.mpr ⟨hnv, hnd⟩
  have hsubset : (var :: keys a) ⊆ cw.vars := by
    intro v hv
    rcases List.mem_cons.mp hv with hv | hv
    · exact hv ▸ hvar
    · exact hsub v hv
  have hle := (List.subperm_of_subset hnodup hsubset).length_le
  rw [List.length_cons] at hle
  omega

lemma consistent_sub (cw : Crossword) {s a : Assignment}
    (hnds : NodupKeys s) (hsubs : ∀ v ∈ keys s, v ∈ cw.vars)
    (hnda : NodupKeys a) (hsuba : ∀ v ∈ keys a, v ∈ cw.vars)
    (hcons : consistent cw s = true)
    (hag : ∀ v w, lookupA a v = some w → lookupA s v = some w) :
    consistent cw a = true := by
  rw [consistent_iff cw hnda hsuba]
  intro x y wx wy i j hx hy ho
  exact (consistent_iff cw hnds hsubs).mp hcons x y wx wy i j (hag x wx hx) (hag y wy hy) ho

lemma subAssign_insertA {s a : Assignment} {var : Variable} {w : Word}
    (hag : ∀ v u, lookupA a v = some u → lookupA s v = some u)
    (hvar : var ∉ keys a) (hw : lookupA s var = some w) :
    ∀ v u, lookupA (insertA a var w) v = some u → lookupA s v = some u := by
  intro v u h
  rw [lookupA_insertA hvar] at h
  by_cases hv : v = var
  · rw [if_pos hv] at h
    rw [Option.some.injEq] at h
    subst h
    exact hv ▸ hw
  · rw [if_neg hv] at h
    exact hag v u h

lemma tryValues_complete (cw : Crossword) (D : Domains) (s : Assignment) (var : Variable)
    (fuel : Nat)
    (hnds : NodupKeys s) (hsubs : ∀ v ∈ keys s, v ∈ cw.vars)
    (hconss : consistent cw s = true)
    (IH : ∀ a2, NodupKeys a2 → (∀ v ∈ keys a2, v ∈ cw.vars) →
      (∀ v u, lookupA a2 v = some u → lookupA s v = some u) →
      cw.vars.length - (keys a2).length < fuel →
      ((backtrack cw fuel D a2).2).isSome = true) :
    ∀ (l : List Word) (a : Assignment) (ws : Word),
      NodupKeys a → (∀ v ∈ keys a, v ∈ cw.vars) →
      (∀ v u, lookupA a v = some u → lookupA s v = some u) →
      var ∈ cw.vars → var ∉ keys a → lookupA s var = some ws → ws ∈ l →
      cw.vars.length - (keys a).length < fuel + 1 →
      ((tryValues cw (fun D2 a2 => backtrack cw fuel D2 a2) var D a l).2).isSome = true := by
  intro l
  induction l with
  | nil =>
    intro a ws _ _ _ _ _ _ hwl _
    simp at hwl
  | cons v rest ih =>
    intro a ws hnd hsub hag hvin hvnk hws hwl hm
    have hkeyslt : (keys a).length < cw.vars.length := keys_length_lt hnd hsub hvin hvnk
    have hkeys2 : ∀ u ∈ keys (insertA a var v), u ∈ cw.vars := by
      intro u hu
      rw [keys_insertA hvnk] at hu
      rcases List.mem_append.mp hu with hu | hu
      · exact hsub u hu
      · rw [List.mem_singleton] at hu
        exact hu ▸ hvin
    rw [tryValues]
    by_cases hc : consistent cw (insertA a var v)
    · rw [if_pos hc]
      rcases hb : backtrack cw fuel D (insertA a var v) with ⟨D', o⟩
      have hD' : D' = D := by rw [← backtrack_fst cw fuel D (insertA a var v), hb]
      cases o with
      | some r2 => rfl
      | none =>
        have hvne : v ≠ ws := by
          intro he
          subst he
          have hm2 : cw.vars.length - (keys (insertA a var v)).length < fuel := by
            rw [keys_insertA hvnk, List.length_append]
            simp only [List.length_singleton]
            omega
          have hsome := IH (insertA a var v) (nodupKeys_insertA hnd hvnk v) hkeys2
            (subAssign_insertA hag hvnk hws) hm2
          rw [hb] at hsome
          exact absurd hsome (by simp)
        have hrest : ws ∈ rest := by
          rcases List.mem_cons.mp hwl with hwl2 | hwl2
          · exact absurd hwl2.symm hvne
          · exact hwl2
        have hgoal : ((tryValues cw (fun D2 a2 => backtrack cw fuel D2 a2)
            var D' a rest).2).isSome = true := by
          rw [hD']
          exact ih a ws hnd hsub hag hvin hvnk hws hrest hm
        exact hgoal
    · rw [if_neg hc]
      have hvne : v ≠ ws := by
        intro he
        subst he
        exact hc (consistent_sub cw hnds hsubs (nodupKeys_insertA hnd hvnk v) hkeys2 hconss
          (subAssign_insertA hag hvnk hws))
      have hrest : ws ∈ rest := by
        rcases List.mem_cons.mp hwl with hwl2 | hwl2
        · exact absurd hwl2.symm hvne
        · exact hwl2
      exact ih a ws hnd hsub hag hvin hvnk hws hrest hm

lemma backtrack_some (cw : Crossword) (D : Domains) (s : Assignment)
    (hsol : SolutionIn cw D s) :
    ∀ (fuel : Nat) (a : Assignment),
      NodupKeys a → (∀ v ∈ keys a, v ∈ cw.vars) →
      (∀ v u, lookupA a v = some u → lookupA s v = some u) →
      cw.vars.length - (keys a).length < fuel →
      ((backtrack cw fuel D a).2).isSome = true := by
  obtain ⟨hnds, hsubs, hcovs, hconss, hvals⟩ := hsol
  intro fuel
  induction fuel with
  | zero =>
    intro a _ _ _ hm
    omega
  | succ fuel ih =>
    intro a hnd hsub hag hm
    rw [backtrack]
    by_cases hcomp : assignment_complete cw a
    · rw [if_pos hcomp]
      rfl
    · rw [if_neg hcomp]
      have hex : ∃ v ∈ cw.vars, v ∉ keys a := by
        by_contra hno
        push_neg at hno
        refine hcomp ?_
        rw [assignment_complete_iff]
        exact ⟨hno, hsub⟩
      obtain ⟨var, hsel⟩ := select_isSome hex
      rw [hsel]
      obtain ⟨hvin, hvnk⟩ := select_mem hsel
      have hvks : var ∈ keys s := hcovs var hvin
      obtain ⟨ws, hws⟩ := lookupA_isSome_of_mem hvks
      have hwl : ws ∈ order_domain_values cw D var a := by
        rw [(order_domain_values_perm cw D var a).mem_iff]
        exact hvals (var, ws) (lookupA_mem hws)
      exact tryValues_complete cw D s var fuel hnds hsubs hconss
        (fun a2 h1 h2 h3 h4 => ih a2 h1 h2 h3 h4)
        (order_domain_values cw D var a) a ws hnd hsub hag hvin hvnk hws hwl hm

/-- Claim C2: search completeness — whenever some complete assignment drawing
    each slot's word from the given (post node-consistency and AC-3) domain
    store satisfies all overlap-agreement and no-identical-word constraints,
    backtrack on the empty assignment (with recursion depth for every slot,
    as in the source) returns such an assignment rather than None. -/
theorem c2 (cw : Crossword) (D : Domains) (s : Assignment) (hsol : SolutionIn cw D s) :
    ∃ r, (backtrack cw (cw.vars.length + 1) D []).2 = some r ∧ SolutionIn cw D r := by
  have hsome := backtrack_some cw D s hsol (cw.vars.length + 1) []
    (by rw [NodupKeys]; exact List.nodup_nil)
    (by intro v hv; simp [keys] at hv)
    (by intro v u h; rw [lookupA] at h; exact absurd h (by simp))
    (by simp [keys])
  rw [Option.isSome_iff_exists] at hsome
  obtain ⟨r, hr⟩ := hsome
  refine ⟨r, hr, ?_⟩
  exact backtrack_sound cw _ D [] r (by rw [NodupKeys]; exact List.nodup_nil)
    (by intro v hv; simp [keys] at hv) rfl (by intro p hp; simp at hp) hr

/-- Witness for C2: on the concrete puzzle `CW2` the assignment `S2` is a
    solution inside `D2`, so the search from the empty assignment succeeds. -/
theorem c2_witness :
    SolutionIn CW2 D2 S2 ∧
      ∃ r, (backtrack CW2 (CW2.vars.length + 1) D2 []).2 = some r ∧ SolutionIn CW2 D2 r :=
  ⟨by decide, c2 CW2 D2 S2 (by decide)⟩

end CrosswordCSP
